/-
Verification of the gokit specification against the gokit sources.

Part 1 models the parallel map-reduce work queue described by the spec
(sections 2-8).  The repository sources contain only the work queue's test
file, so the queue itself is modelled from the spec as a labelled transition
system: a producer submits tasks into a bounded FIFO queue (capacity 0 means
synchronous handoff to an idle worker), a fixed pool of workers dequeues
tasks, applies the transform and hands each result to a single reducer that
folds it into the accumulator, and a lifecycle Running -> Draining ->
Completed controls submission and join.

Part 2 embeds the `simplejson` package (src/simplejson.go) and the `assert`
package (Equal/NotEqual/True/False built on reflect.DeepEqual), which are
present in the sources.
-/
import Mathlib

namespace WorkQueue

/-- Modelled from the spec: lifecycle of a queue instance (section 3).
The implementation of the work queue is not under the sources, only its test
file; the states Running, Draining and Completed are taken from the spec's
lifecycle description (Created is merged into Running because in the model
all configuration is supplied at construction). -/
inductive Phase where
  | Running
  | Draining
  | Completed
deriving DecidableEq

/-- Modelled from the spec: the state of one work queue instance (sections
2-4).  `capacity` is the task queue capacity; `queue` the buffered pending
tasks in FIFO order; `workers` the pool, one slot per worker, `none` when the
worker is idle and `some r` when it has transformed a task into result `r`
and has not yet handed it to the reducer; `acc` the reducer's accumulator.
`submitted` and `folded` are the histories of submitted tasks and folded
results (ghost data used to state the spec's accounting properties). -/
structure WQ (τ ρ α : Type) where
  capacity : Nat
  phase : Phase
  queue : List τ
  workers : List (Option ρ)
  acc : α
  submitted : List τ
  folded : List ρ
deriving DecidableEq

/-- Modelled from the spec: the events a run of the work queue is made of.
`submitBuffer` buffers a task (positive capacity), `submitHandoff` hands a
task synchronously to an idle worker (the blocked-receiver case), `dequeue`
lets worker `i` take the queue head and apply the transform, `deliver` lets
worker `i` hand its result to the reducer which folds it, `close` is the
producer-side completion signal issued by `join`, and `complete` is the
reducer exiting after full drain, after which `join` returns. -/
inductive Label (τ : Type) where
  | submitBuffer (t : τ)
  | submitHandoff (t : τ) (i : Nat)
  | dequeue (i : Nat)
  | deliver (i : Nat)
  | close
  | complete
deriving DecidableEq

/-- Modelled from the spec: one atomic step of the work queue (sections 4-5).
A step that is not enabled returns `none` (the corresponding execution unit
would block, or the event cannot happen at all). -/
def step (tf : τ → ρ) (fold : α → ρ → α) : Label τ → WQ τ ρ α → Option (WQ τ ρ α)
  | .submitBuffer t, s =>
      if s.phase = Phase.Running then
        if s.queue.length < s.capacity then
          some { s with queue := s.queue ++ [t], submitted := s.submitted ++ [t] }
        else none
      else none
  | .submitHandoff t i, s =>
      if s.phase = Phase.Running then
        match s.queue, s.workers[i]? with
        | [], some none =>
            some { s with workers := s.workers.set i (some (tf t)),
                          submitted := s.submitted ++ [t] }
        | _, _ => none
      else none
  | .dequeue i, s =>
      match s.queue, s.workers[i]? with
      | t :: rest, some none =>
          some { s with queue := rest, workers := s.workers.set i (some (tf t)) }
      | _, _ => none
  | .deliver i, s =>
      match s.workers[i]? with
      | some (some r) =>
          some { s with workers := s.workers.set i none,
                        acc := fold s.acc r, folded := s.folded ++ [r] }
      | _ => none
  | .close, s =>
      if s.phase = Phase.Running then some { s with phase := Phase.Draining } else none
  | .complete, s =>
      if s.phase = Phase.Draining then
        match s.queue, s.workers.all (fun w => w.isNone) with
        | [], true => some { s with phase := Phase.Completed }
        | _, _ => none
      else none

/-- Modelled from the spec: a freshly constructed queue instance with `c` the
queue capacity, `n` the worker concurrency and `seed` the reducer seed. -/
def init (c n : Nat) (seed : α) : WQ τ ρ α :=
  { capacity := c, phase := Phase.Running, queue := [],
    workers := List.replicate n none, acc := seed, submitted := [], folded := [] }

/-- A run: execute a list of events in order; `none` when some event in the
list is not enabled at the state it is attempted in. -/
def run (tf : τ → ρ) (fold : α → ρ → α) : List (Label τ) → WQ τ ρ α → Option (WQ τ ρ α)
  | [], s => some s
  | l :: ls, s =>
      match step tf fold l s with
      | some s' => run tf fold ls s'
      | none => none

/-- The results currently held by workers (transformed, not yet folded). -/
def held : List (Option ρ) → List ρ
  | [] => []
  | none :: ws => held ws
  | some r :: ws => r :: held ws

theorem held_replicate_none (n : Nat) : held (List.replicate n (none : Option ρ)) = [] := by
  induction n with
  | zero => rfl
  | succ n ih => simpa [List.replicate, held] using ih

theorem held_set_some {ws : List (Option ρ)} {i : Nat} (r : ρ) (h : ws[i]? = some none) :
    List.Perm (held (ws.set i (some r))) (r :: held ws) := by
  induction ws generalizing i with
  | nil => simp at h
  | cons w ws ih =>
    cases i with
    | zero =>
      simp at h
      subst h
      simp [held]
    | succ i =>
      simp at h
      cases w with
      | none => simpa [held] using ih h
      | some r' =>
        simp only [List.set, held]
        exact ((ih h).cons r').trans (List.Perm.swap r r' (held ws))

theorem held_set_none {ws : List (Option ρ)} {i : Nat} {r : ρ} (h : ws[i]? = some (some r)) :
    List.Perm (held ws) (r :: held (ws.set i none)) := by
  induction ws generalizing i with
  | nil => simp at h
  | cons w ws ih =>
    cases i with
    | zero =>
      simp at h
      subst h
      simp [held]
    | succ i =>
      simp at h
      cases w with
      | none => simpa [held] using ih h
      | some r' =>
        simp only [List.set, held]
        exact ((ih h).cons r').trans (List.Perm.swap r r' (held (ws.set i none)))

theorem held_eq_nil_of_all_none {ws : List (Option ρ)}
    (h : ws.all (fun w => w.isNone) = true) : held ws = [] := by
  induction ws with
  | nil => rfl
  | cons w ws ih =>
    simp only [List.all_cons, Bool.and_eq_true] at h
    cases w with
    | none => exact ih h.2
    | some r => simp at h

theorem getElem?_ne_some_some_of_all_none {ws : List (Option ρ)}
    (h : ws.all (fun w => w.isNone) = true) (i : Nat) (r : ρ) :
    ws[i]? ≠ some (some r) := by
  intro hc
  obtain ⟨hlt, he⟩ := List.getElem?_eq_some.mp hc
  have hm : some r ∈ ws := he ▸ List.getElem_mem hlt
  have := List.all_eq_true.mp h _ hm
  simp at this

/-- The accounting invariant of the work queue (spec section 8, Conservation,
plus the reducer contract of section 4.3): every submitted task is, after
transformation, in exactly one of the folded history, a worker's hands or the
pending queue; the accumulator is the left fold of the seed over the folded
history; the queue never exceeds the configured capacity; and, when there is
exactly one worker, the three parts appear in submission order. -/
structure Good (tf : τ → ρ) (fold : α → ρ → α) (c n : Nat) (seed : α)
    (s : WQ τ ρ α) : Prop where
  cap : s.capacity = c
  nw : s.workers.length = n
  perm : List.Perm (s.submitted.map tf) (s.folded ++ (held s.workers ++ s.queue.map tf))
  accEq : s.acc = List.foldl fold seed s.folded
  qlen : s.queue.length ≤ c
  ord : n = 1 → s.submitted.map tf = s.folded ++ (held s.workers ++ s.queue.map tf)
  done : s.phase = Phase.Completed →
    s.queue = [] ∧ s.workers.all (fun w => w.isNone) = true

theorem good_init (tf : τ → ρ) (fold : α → ρ → α) (c n : Nat) (seed : α) :
    Good tf fold c n seed (init c n seed) := by
  refine ⟨rfl, List.length_replicate n none, ?_, rfl, by simp [init], ?_, ?_⟩
  · simp [init, held_replicate_none]
  · intro _; simp [init, held_replicate_none]
  · intro h; simp [init] at h

theorem workers_singleton_of_idle {ws : List (Option ρ)} {i : Nat}
    (hlen : ws.length = 1) (h : ws[i]? = some none) : ws = [none] ∧ i = 0 := by
  obtain ⟨w, hw⟩ := List.length_eq_one.mp hlen
  subst hw
  cases i with
  | zero => simp_all
  | succ i => simp at h

theorem workers_singleton_of_busy {ws : List (Option ρ)} {i : Nat} {r : ρ}
    (hlen : ws.length = 1) (h : ws[i]? = some (some r)) : ws = [some r] ∧ i = 0 := by
  obtain ⟨w, hw⟩ := List.length_eq_one.mp hlen
  subst hw
  cases i with
  | zero => simp_all
  | succ i => simp at h

theorem step_good {tf : τ → ρ} {fold : α → ρ → α} {c n : Nat} {seed : α}
    {s s' : WQ τ ρ α} {l : Label τ}
    (hg : Good tf fold c n seed s) (h : step tf fold l s = some s') :
    Good tf fold c n seed s' := by
  obtain ⟨hcap, hnw, hperm, hacc, hqlen, hord, hdone⟩ := hg
  cases l with
  | submitBuffer t =>
    simp only [step] at h
    split at h
    case isFalse => exact Option.noConfusion h
    case isTrue hrun =>
      split at h
      case isFalse => exact Option.noConfusion h
      case isTrue hlt =>
        injection h with h
        subst h
        refine ⟨hcap, hnw, ?_, hacc, ?_, ?_, ?_⟩
        · simpa [List.append_assoc] using hperm.append_right [tf t]
        · simp only [List.length_append, List.length_singleton]
          omega
        · intro h1
          simp [hord h1, List.append_assoc]
        · intro hc
          simp only [hrun] at hc
          exact Phase.noConfusion hc
  | submitHandoff t i =>
    simp only [step] at h
    split at h
    case isFalse => exact Option.noConfusion h
    case isTrue hrun =>
      split at h
      case h_2 => exact Option.noConfusion h
      case h_1 hq hw =>
        injection h with h
        subst h
        refine ⟨hcap, by simpa using hnw, ?_, hacc, by simp [hq], ?_, ?_⟩
        · simp only [List.map_append, List.map_cons, List.map_nil, hq, List.append_nil] at hperm ⊢
          refine (hperm.append_right [tf t]).trans ?_
          rw [List.append_assoc]
          exact List.Perm.append_left s.folded
            ((List.perm_append_singleton (tf t) (held s.workers)).trans
              (held_set_some (tf t) hw).symm)
        · intro h1
          obtain ⟨hws, hi⟩ := workers_singleton_of_idle (hnw.trans h1) hw
          have h2 := hord h1
          subst hi
          simp [hws, held, hq] at h2 ⊢
          simp [h2]
        · intro hc
          simp only [hrun] at hc
          exact Phase.noConfusion hc
  | dequeue i =>
    simp only [step] at h
    split at h
    case h_2 => exact Option.noConfusion h
    case h_1 t rest hq hw =>
      injection h with h
      subst h
      refine ⟨hcap, by simpa using hnw, ?_, hacc, ?_, ?_, ?_⟩
      · simp only [hq, List.map_cons] at hperm
        refine hperm.trans (List.Perm.append_left s.folded ?_)
        exact List.perm_middle.trans
          (((held_set_some (tf t) hw).append_right (rest.map tf)).symm)
      · rw [hq] at hqlen
        simp only [List.length_cons] at hqlen
        show rest.length ≤ c
        omega
      · intro h1
        obtain ⟨hws, hi⟩ := workers_singleton_of_idle (hnw.trans h1) hw
        have h2 := hord h1
        subst hi
        simp [hws, held, hq] at h2 ⊢
        simp [h2]
      · intro hc
        obtain ⟨h1, _⟩ := hdone hc
        rw [hq] at h1
        exact List.noConfusion h1
  | deliver i =>
    simp only [step] at h
    split at h
    case h_2 => exact Option.noConfusion h
    case h_1 r hw =>
      injection h with h
      subst h
      refine ⟨hcap, by simpa using hnw, ?_, ?_, hqlen, ?_, ?_⟩
      · rw [List.append_assoc]
        refine hperm.trans (List.Perm.append_left s.folded ?_)
        simpa using (held_set_none hw).append_right (s.queue.map tf)
      · rw [hacc]
        simp [List.foldl_append]
      · intro h1
        obtain ⟨hws, hi⟩ := workers_singleton_of_busy (hnw.trans h1) hw
        have h2 := hord h1
        subst hi
        simp [hws, held] at h2 ⊢
        simp [h2, List.append_assoc]
      · intro hc
        obtain ⟨_, h2⟩ := hdone hc
        exact absurd hw (getElem?_ne_some_some_of_all_none h2 i r)
  | close =>
    simp only [step] at h
    split at h
    case isFalse => exact Option.noConfusion h
    case isTrue hrun =>
      injection h with h
      subst h
      refine ⟨hcap, hnw, hperm, hacc, hqlen, hord, ?_⟩
      intro hc
      exact Phase.noConfusion hc
  | complete =>
    simp only [step] at h
    split at h
    case isFalse => exact Option.noConfusion h
    case isTrue hdr =>
      split at h
      case h_2 => exact Option.noConfusion h
      case h_1 hq hall =>
        injection h with h
        subst h
        exact ⟨hcap, hnw, hperm, hacc, hqlen, hord, fun _ => ⟨hq, hall⟩⟩

theorem run_good {tf : τ → ρ} {fold : α → ρ → α} {c n : Nat} {seed : α}
    {ls : List (Label τ)} {s s' : WQ τ ρ α}
    (hg : Good tf fold c n seed s) (h : run tf fold ls s = some s') :
    Good tf fold c n seed s' := by
  induction ls generalizing s with
  | nil =>
    simp only [run] at h
    injection h with h
    subst h
    exact hg
  | cons l ls ih =>
    simp only [run] at h
    cases hstep : step tf fold l s with
    | none => rw [hstep] at h; exact Option.noConfusion h
    | some s1 =>
      rw [hstep] at h
      exact ih (step_good hg hstep) h

theorem reach_good {tf : τ → ρ} {fold : α → ρ → α} {c n : Nat} {seed : α}
    {ls : List (Label τ)} {s : WQ τ ρ α}
    (h : run tf fold ls (init c n seed) = some s) :
    Good tf fold c n seed s :=
  run_good (good_init tf fold c n seed) h

theorem completed_folded_perm {tf : τ → ρ} {fold : α → ρ → α} {c n : Nat} {seed : α}
    {s : WQ τ ρ α} (hg : Good tf fold c n seed s) (hp : s.phase = Phase.Completed) :
    List.Perm s.folded (s.submitted.map tf) := by
  obtain ⟨hq, hall⟩ := hg.done hp
  have hperm := hg.perm
  rw [hq, held_eq_nil_of_all_none hall] at hperm
  simpa using hperm.symm

theorem completed_acc_foldl {tf : τ → ρ} {fold : α → ρ → α} {c n : Nat} {seed : α}
    {s : WQ τ ρ α} (hg : Good tf fold c n seed s) :
    s.acc = List.foldl fold seed s.folded := hg.accEq

end WorkQueue

namespace WorkQueue

/-- C1.  Conservation: in every run of the work queue that ends with `join`
returning (phase Completed), the reducer has folded exactly as many results
as tasks were submitted, and the folded results are exactly the transforms of
the submitted tasks, each exactly once (a permutation) — for every worker
concurrency `n` and queue capacity `c`. -/
theorem wq_conservation {τ ρ α : Type} (tf : τ → ρ) (fold : α → ρ → α)
    (c n : Nat) (seed : α) (ls : List (Label τ)) (s : WQ τ ρ α)
    (h : run tf fold ls (init c n seed) = some s)
    (hp : s.phase = Phase.Completed) :
    s.folded.length = s.submitted.length
      ∧ List.Perm s.folded (s.submitted.map tf) := by
  have hperm := completed_folded_perm (reach_good h) hp
  refine ⟨?_, hperm⟩
  simpa using hperm.length_eq

theorem wq_conservation_witness :
    ∃ s : WQ Nat Nat Nat,
      run (fun t => t) (fun a r => a + r)
        [Label.submitBuffer 3, Label.dequeue 0, Label.deliver 0, Label.submitBuffer 4,
         Label.dequeue 0, Label.deliver 0, Label.close, Label.complete] (init 1 1 0) = some s
      ∧ s.folded.length = s.submitted.length
      ∧ List.Perm s.folded (s.submitted.map (fun t => t)) := by
  refine ⟨⟨1, Phase.Completed, [], [none], 7, [3, 4], [3, 4]⟩, by decide, ?_⟩
  exact wq_conservation (fun t => t) (fun a r => a + r) 1 1 0
    [Label.submitBuffer 3, Label.dequeue 0, Label.deliver 0, Label.submitBuffer 4,
     Label.dequeue 0, Label.deliver 0, Label.close, Label.complete]
    ⟨1, Phase.Completed, [], [none], 7, [3, 4], [3, 4]⟩ (by decide) (by decide)

/-- A fully sequential schedule: submit each task, let worker 0 dequeue and
transform it and hand the result to the reducer, then close and drain.  Used
to exhibit concrete complete runs. -/
def seqLabels : List τ → List (Label τ)
  | [] => [Label.close, Label.complete]
  | t :: ts => Label.submitBuffer t :: Label.dequeue 0 :: Label.deliver 0 :: seqLabels ts

theorem all_isNone_replicate (n : Nat) :
    (List.replicate n (none : Option ρ)).all (fun w => w.isNone) = true := by
  induction n with
  | zero => rfl
  | succ n ih => simp [List.replicate_succ, ih]

theorem run_seqLabels (tf : τ → ρ) (fold : α → ρ → α) (c m : Nat) (a : α)
    (sub : List τ) (fld : List ρ) (tasks : List τ) :
    run tf fold (seqLabels tasks)
      ⟨c + 1, Phase.Running, [], List.replicate (m + 1) none, a, sub, fld⟩
    = some ⟨c + 1, Phase.Completed, [], List.replicate (m + 1) none,
            List.foldl (fun x t => fold x (tf t)) a tasks,
            sub ++ tasks, fld ++ tasks.map tf⟩ := by
  induction tasks generalizing a sub fld with
  | nil =>
    simp [seqLabels, run, step, all_isNone_replicate]
  | cons t ts ih =>
    have h1 : step tf fold (Label.submitBuffer t)
        (⟨c + 1, Phase.Running, [], List.replicate (m + 1) none, a, sub, fld⟩ : WQ τ ρ α)
        = some ⟨c + 1, Phase.Running, [t], List.replicate (m + 1) none, a, sub ++ [t], fld⟩ := by
      simp [step]
    have h2 : step tf fold (Label.dequeue 0)
        (⟨c + 1, Phase.Running, [t], List.replicate (m + 1) none, a, sub ++ [t], fld⟩ : WQ τ ρ α)
        = some ⟨c + 1, Phase.Running, [], some (tf t) :: List.replicate m none, a,
                sub ++ [t], fld⟩ := by
      simp [step, List.replicate_succ]
    have h3 : step tf fold (Label.deliver 0)
        (⟨c + 1, Phase.Running, [], some (tf t) :: List.replicate m none, a,
          sub ++ [t], fld⟩ : WQ τ ρ α)
        = some ⟨c + 1, Phase.Running, [], List.replicate (m + 1) none, fold a (tf t),
                sub ++ [t], fld ++ [tf t]⟩ := by
      simp [step, List.replicate_succ]
    simp only [seqLabels, run, h1, h2, h3]
    rw [ih (fold a (tf t)) (sub ++ [t]) (fld ++ [tf t])]
    simp [List.append_assoc]

theorem foldl_add_eq_sum (l : List Int) (a : Int) :
    List.foldl (fun x y => x + y) a l = a + l.sum := by
  induction l generalizing a with
  | nil => simp
  | cons b l ih => simp [ih, add_assoc]

theorem range_cast_sum (n : Nat) :
    ((List.range n).map (fun k => Int.ofNat k)).sum * 2 = Int.ofNat n * (Int.ofNat n - 1) := by
  induction n with
  | zero => simp
  | succ n ih =>
    rw [List.range_succ]
    simp only [List.map_append, List.map_cons, List.map_nil, List.sum_append,
      List.sum_cons, List.sum_nil, add_zero, Int.ofNat_eq_natCast, Nat.cast_add,
      Nat.cast_one] at ih ⊢
    linear_combination ih

theorem sum_map_const {τ : Type} (l : List τ) (g : τ → Int) (v : Int)
    (h : ∀ x ∈ l, g x = v) : (l.map g).sum = l.length * v := by
  induction l with
  | nil => simp
  | cons x l ih =>
    have hx := h x (List.mem_cons_self x l)
    have hl := ih (fun y hy => h y (List.mem_cons_of_mem x hy))
    simp only [List.map_cons, List.sum_cons, List.length_cons, hx, hl]
    push_cast
    ring

/-- C3.  Scenario 1: submitting the integers 0..999 with transform the
identity, fold integer addition with seed 0 and worker concurrency 10, every
complete run has `join` return 499500. -/
theorem wq_scenario1 (c : Nat) (ls : List (Label Int)) (s : WQ Int Int Int)
    (h : run (fun t => t) (fun a r => a + r) ls (init c 10 0) = some s)
    (hp : s.phase = Phase.Completed)
    (hsub : s.submitted = (List.range 1000).map (fun k => Int.ofNat k)) :
    s.acc = 499500 := by
  have hg := reach_good h
  have hperm := completed_folded_perm hg hp
  rw [completed_acc_foldl hg, foldl_add_eq_sum, hperm.sum_eq]
  have h2 : ((List.range 1000).map (fun k => Int.ofNat k)).sum * 2 = 999000 := by
    rw [range_cast_sum]
    norm_num
  simp only [List.map_id', hsub]
  omega

theorem wq_scenario1_witness :
    ∃ s : WQ Int Int Int,
      run (fun t => t) (fun a r => a + r)
        (seqLabels ((List.range 1000).map (fun k => Int.ofNat k))) (init 1 10 0) = some s
      ∧ s.acc = 499500 := by
  have hrun := run_seqLabels (fun t : Int => t) (fun a r : Int => a + r) 0 9 0 [] []
    ((List.range 1000).map (fun k => Int.ofNat k))
  refine ⟨_, hrun, ?_⟩
  exact wq_scenario1 1 _ _ hrun rfl (by simp)

/-- C4.  Scenario 2: with a transform mapping each task (a filename) to that
file's line count in the file system `fs`, fold integer addition with seed 0,
every complete run that submitted 100 files of 10 lines each has `join`
return 1000 (any capacity, any concurrency). -/
theorem wq_scenario2 (fs : String → List String) (c n : Nat)
    (ls : List (Label String)) (s : WQ String Int Int)
    (h : run (fun name => Int.ofNat (fs name).length) (fun a r => a + r) ls
      (init c n 0) = some s)
    (hp : s.phase = Phase.Completed)
    (hcount : s.submitted.length = 100)
    (hlines : ∀ f ∈ s.submitted, (fs f).length = 10) :
    s.acc = 1000 := by
  have hg := reach_good h
  have hperm := completed_folded_perm hg hp
  rw [completed_acc_foldl hg, foldl_add_eq_sum, hperm.sum_eq]
  rw [sum_map_const s.submitted _ 10 (fun x hx => by simp [hlines x hx])]
  rw [hcount]
  norm_num

theorem wq_scenario2_witness :
    ∃ s : WQ String Int Int,
      run (fun name => Int.ofNat ((fun _ : String => List.replicate 10 "x") name).length)
        (fun a r => a + r) (seqLabels (List.replicate 100 "file")) (init 1 1 0) = some s
      ∧ s.acc = 1000 := by
  have hrun := run_seqLabels (fun name : String =>
      Int.ofNat ((fun _ : String => List.replicate 10 "x") name).length)
    (fun a r : Int => a + r) 0 0 0 [] [] (List.replicate 100 "file")
  refine ⟨_, hrun, ?_⟩
  exact wq_scenario2 (fun _ : String => List.replicate 10 "x") 1 1 _ _ hrun rfl
    (by simp) (by simp)

/-- C2.  Order-independence: for a commutative and associative fold, two
complete runs that submit the same multiset of tasks (any permutation, any
submission order) end with the same accumulator, for any two worker
concurrency settings and queue capacities. -/
theorem wq_order_independence {τ α : Type} (tf : τ → α) (fold : α → α → α)
    (hcomm : ∀ x y, fold x y = fold y x)
    (hassoc : ∀ x y z, fold (fold x y) z = fold x (fold y z))
    (seed : α) (c₁ n₁ c₂ n₂ : Nat) (ls₁ ls₂ : List (Label τ)) (s₁ s₂ : WQ τ α α)
    (h₁ : run tf fold ls₁ (init c₁ n₁ seed) = some s₁)
    (hp₁ : s₁.phase = Phase.Completed)
    (h₂ : run tf fold ls₂ (init c₂ n₂ seed) = some s₂)
    (hp₂ : s₂.phase = Phase.Completed)
    (hsub : List.Perm s₁.submitted s₂.submitted) :
    s₁.acc = s₂.acc := by
  haveI : RightCommutative fold :=
    ⟨fun b a₁ a₂ => by rw [hassoc, hcomm a₁ a₂, ← hassoc]⟩
  have hf₁ := completed_folded_perm (reach_good h₁) hp₁
  have hf₂ := completed_folded_perm (reach_good h₂) hp₂
  have hperm : List.Perm s₁.folded s₂.folded :=
    (hf₁.trans (hsub.map tf)).trans hf₂.symm
  rw [completed_acc_foldl (reach_good h₁), completed_acc_foldl (reach_good h₂)]
  exact hperm.foldl_eq seed

theorem wq_order_independence_witness :
    ∃ s₁ s₂ : WQ Nat Nat Nat,
      run (fun t => t) (fun a r => a + r)
        [Label.submitBuffer 1, Label.dequeue 0, Label.deliver 0, Label.submitBuffer 2,
         Label.dequeue 0, Label.deliver 0, Label.close, Label.complete] (init 1 1 0) = some s₁
      ∧ run (fun t => t) (fun a r => a + r)
          [Label.submitHandoff 2 0, Label.submitHandoff 1 1, Label.deliver 1,
           Label.deliver 0, Label.close, Label.complete] (init 0 2 0) = some s₂
      ∧ s₁.acc = s₂.acc := by
  refine ⟨⟨1, Phase.Completed, [], [none], 3, [1, 2], [1, 2]⟩,
          ⟨0, Phase.Completed, [], [none, none], 3, [2, 1], [1, 2]⟩,
          by decide, by decide, ?_⟩
  exact wq_order_independence (fun t => t) (fun a r => a + r) Nat.add_comm Nat.add_assoc
    0 1 1 0 2
    [Label.submitBuffer 1, Label.dequeue 0, Label.deliver 0, Label.submitBuffer 2,
     Label.dequeue 0, Label.deliver 0, Label.close, Label.complete]
    [Label.submitHandoff 2 0, Label.submitHandoff 1 1, Label.deliver 1,
     Label.deliver 0, Label.close, Label.complete]
    ⟨1, Phase.Completed, [], [none], 3, [1, 2], [1, 2]⟩
    ⟨0, Phase.Completed, [], [none, none], 3, [2, 1], [1, 2]⟩
    (by decide) (by decide) (by decide) (by decide) (by decide)

/-- Modelled from the spec: the three possible immediate outcomes of one
`submit` call (sections 4.1 and 7): the task is accepted (buffered, or handed
synchronously to an idle worker) yielding a new state, or the caller blocks
(queue full and no worker ready), or the call is a usage error that fails
loudly (abort/panic-equivalent) because the instance is Draining or
Completed. -/
inductive SubmitOutcome (τ ρ α : Type) where
  | accepted (s' : WQ τ ρ α)
  | blocked
  | panicked
deriving DecidableEq

/-- Modelled from the spec: what one `submit` call does, as a function of the
current state (sections 4.1 and 7).  While Running it buffers when the queue
has room, hands the task to the first idle worker when the queue is empty,
and otherwise blocks; once `join` has begun (Draining/Completed) it fails
loudly. -/
def submitOutcome (tf : τ → ρ) (t : τ) (s : WQ τ ρ α) : SubmitOutcome τ ρ α :=
  match s.phase with
  | Phase.Running =>
      if s.queue.length < s.capacity then
        SubmitOutcome.accepted
          { s with queue := s.queue ++ [t], submitted := s.submitted ++ [t] }
      else
        match s.queue, s.workers.findIdx? (fun w => w.isNone) with
        | [], some i =>
            SubmitOutcome.accepted
              { s with workers := s.workers.set i (some (tf t)),
                       submitted := s.submitted ++ [t] }
        | _, _ => SubmitOutcome.blocked
  | _ => SubmitOutcome.panicked

theorem findIdx?_isNone_eq_none {ws : List (Option ρ)} (h : (none : Option ρ) ∉ ws) :
    ws.findIdx? (fun w => w.isNone) = none := by
  induction ws with
  | nil => rfl
  | cons w tail ih =>
    simp only [List.mem_cons, not_or] at h
    cases w with
    | none => exact absurd rfl h.1
    | some r => simp [List.findIdx?_cons, ih h.2]

/-- C5.  Misuse of submit: on an instance on which `join` has been called
(phase Draining or Completed), a `submit` call panics — it does not block,
does not silently succeed and does not silently drop the task; no submit
event is enabled at all in such a state. -/
theorem wq_submit_after_join {τ ρ α : Type} (tf : τ → ρ) (fold : α → ρ → α)
    (t : τ) (s : WQ τ ρ α)
    (hp : s.phase = Phase.Draining ∨ s.phase = Phase.Completed) :
    submitOutcome tf t s = SubmitOutcome.panicked
    ∧ (∀ s', submitOutcome tf t s ≠ SubmitOutcome.accepted s')
    ∧ submitOutcome tf t s ≠ SubmitOutcome.blocked
    ∧ step tf fold (Label.submitBuffer t) s = none
    ∧ (∀ i, step tf fold (Label.submitHandoff t i) s = none) := by
  rcases hp with hp | hp <;>
    exact ⟨by simp [submitOutcome, hp], fun s' => by simp [submitOutcome, hp],
      by simp [submitOutcome, hp], by simp [step, hp],
      fun i => by simp [step, hp]⟩

theorem wq_submit_after_join_witness :
    submitOutcome (fun t : Nat => t) 1
        (⟨0, Phase.Draining, [], [none], 0, [], []⟩ : WQ Nat Nat Nat)
      = SubmitOutcome.panicked
    ∧ step (fun t : Nat => t) (fun a r : Nat => a + r) (Label.submitBuffer 1)
        (⟨0, Phase.Draining, [], [none], 0, [], []⟩ : WQ Nat Nat Nat) = none :=
  ⟨(wq_submit_after_join (fun t : Nat => t) (fun a r : Nat => a + r) 1 _
      (Or.inl rfl)).1,
   (wq_submit_after_join (fun t : Nat => t) (fun a r : Nat => a + r) 1 _
      (Or.inl rfl)).2.2.2.1⟩

/-- C6.  Backpressure: with capacity 0 a submit can never buffer, succeeds
only as a synchronous handoff to an idle worker, and blocks while no worker
is ready; with positive capacity a submit is accepted into the buffer
whenever fewer than `capacity` tasks are buffered; and in every reachable
state the buffer never exceeds the configured capacity (no unbounded
buffering). -/
theorem wq_backpressure {τ ρ α : Type} (tf : τ → ρ) (fold : α → ρ → α)
    (s : WQ τ ρ α) (t : τ) :
    (s.capacity = 0 → step tf fold (Label.submitBuffer t) s = none)
    ∧ (s.capacity = 0 → s.phase = Phase.Running → (none : Option ρ) ∉ s.workers →
        submitOutcome tf t s = SubmitOutcome.blocked)
    ∧ (∀ i s', s.capacity = 0 → step tf fold (Label.submitHandoff t i) s = some s' →
        s.workers[i]? = some none)
    ∧ (s.phase = Phase.Running → s.queue.length < s.capacity →
        step tf fold (Label.submitBuffer t) s
          = some { s with queue := s.queue ++ [t], submitted := s.submitted ++ [t] })
    ∧ (∀ (c n : Nat) (seed : α) (ls : List (Label τ)) (s' : WQ τ ρ α),
        run tf fold ls (init c n seed) = some s' → s'.queue.length ≤ c) := by
  refine ⟨?_, ?_, ?_, ?_, ?_⟩
  · intro h0
    simp [step, h0]
  · intro h0 hrun hnone
    simp [submitOutcome, hrun, h0, findIdx?_isNone_eq_none hnone]
  · intro i s' _ hstep
    simp only [step] at hstep
    split at hstep
    case isFalse => exact Option.noConfusion hstep
    case isTrue =>
      split at hstep
      case h_2 => exact Option.noConfusion hstep
      case h_1 hq hw => exact hw
  · intro hrun hlt
    simp [step, hrun, hlt]
  · intro c n seed ls s' h
    exact (reach_good h).qlen

theorem wq_backpressure_witness :
    step (fun t : Nat => t) (fun a r : Nat => a + r) (Label.submitBuffer 5)
        (⟨0, Phase.Running, [], [some 7], 0, [], []⟩ : WQ Nat Nat Nat) = none
    ∧ submitOutcome (fun t : Nat => t) 5
        (⟨0, Phase.Running, [], [some 7], 0, [], []⟩ : WQ Nat Nat Nat)
      = SubmitOutcome.blocked
    ∧ step (fun t : Nat => t) (fun a r : Nat => a + r) (Label.submitBuffer 5)
        (⟨2, Phase.Running, [], [none], 0, [], []⟩ : WQ Nat Nat Nat)
      = some ⟨2, Phase.Running, [5], [none], 0, [5], []⟩ :=
  ⟨(wq_backpressure (fun t : Nat => t) (fun a r : Nat => a + r)
      ⟨0, Phase.Running, [], [some 7], 0, [], []⟩ 5).1 rfl,
   (wq_backpressure (fun t : Nat => t) (fun a r : Nat => a + r)
      ⟨0, Phase.Running, [], [some 7], 0, [], []⟩ 5).2.1 rfl rfl (by decide),
   (wq_backpressure (fun t : Nat => t) (fun a r : Nat => a + r)
      ⟨2, Phase.Running, [], [none], 0, [], []⟩ 5).2.2.2.1 rfl (by decide)⟩

/-- C7.  Scenario 3: with queue capacity 0 and worker concurrency exactly 1,
every complete run folds the results exactly in submission order; with
concurrency 2 there is a complete run whose fold order differs from the
submission order, so the ordering is not guaranteed. -/
theorem wq_fifo_single_worker :
    (∀ {τ ρ α : Type} (tf : τ → ρ) (fold : α → ρ → α) (seed : α)
        (ls : List (Label τ)) (s : WQ τ ρ α),
        run tf fold ls (init 0 1 seed) = some s → s.phase = Phase.Completed →
        s.folded = s.submitted.map tf)
    ∧ (∃ s : WQ Nat Nat Nat,
        run (fun t => t) (fun a r => a + r)
          [Label.submitHandoff 1 0, Label.submitHandoff 2 1, Label.deliver 1,
           Label.deliver 0, Label.close, Label.complete] (init 0 2 0) = some s
        ∧ s.folded ≠ s.submitted.map (fun t => t)) := by
  constructor
  · intro τ ρ α tf fold seed ls s h hp
    have hg := reach_good h
    obtain ⟨hq, hall⟩ := hg.done hp
    have hord := hg.ord rfl
    rw [hq, held_eq_nil_of_all_none hall] at hord
    simp only [List.map_nil, List.append_nil] at hord
    exact hord.symm
  · exact ⟨⟨0, Phase.Completed, [], [none, none], 3, [1, 2], [2, 1]⟩,
      by decide, by decide⟩

theorem wq_fifo_single_worker_witness :
    ∃ s : WQ Nat Nat Nat,
      run (fun t => t) (fun a r => a + r)
        [Label.submitHandoff 1 0, Label.deliver 0, Label.submitHandoff 2 0,
         Label.deliver 0, Label.close, Label.complete] (init 0 1 0) = some s
      ∧ s.folded = s.submitted.map (fun t => t) := by
  refine ⟨⟨0, Phase.Completed, [], [none], 3, [1, 2], [1, 2]⟩, by decide, ?_⟩
  exact wq_fifo_single_worker.1 (fun t => t) (fun a r => a + r) 0
    [Label.submitHandoff 1 0, Label.deliver 0, Label.submitHandoff 2 0,
     Label.deliver 0, Label.close, Label.complete]
    ⟨0, Phase.Completed, [], [none], 3, [1, 2], [1, 2]⟩ (by decide) (by decide)

end WorkQueue

namespace SimpleJson

/-- The dynamic JSON value stored in `Json.Data` (src/simplejson.go): Go's
`interface{}` holding nil, bool, a number, a string, `[]interface{}` or
`map[string]interface{}`.  Objects are association lists with unique keys,
looked up by first match. -/
inductive JValue where
  | null
  | boolean (b : Bool)
  | num (n : Int)
  | str (s : String)
  | arr (elems : List JValue)
  | obj (fields : List (String × JValue))

/-- `type Json struct { Data interface{} }` from src/simplejson.go. -/
structure Json where
  Data : JValue

/-- `func (j *Json) Map()`: type-assert `Data` to a map; `none` is the
`assert to map failed` error. -/
def Map (j : Json) : Option (List (String × JValue)) :=
  match j.Data with
  | JValue.obj m => some m
  | _ => none

/-- `func (j *Json) Array()` (named ArrayV because `Array` is taken in Lean):
type-assert `Data` to an array; `none` is the `assert to array failed`
error. -/
def ArrayV (j : Json) : Option (List JValue) :=
  match j.Data with
  | JValue.arr xs => some xs
  | _ => none

/-- Go map indexing `m[k]` on a `map[string]interface{}`. -/
def jlookup : List (String × JValue) → String → Option JValue
  | [], _ => none
  | (k, v) :: rest, key => if k = key then some v else jlookup rest key

/-- `strings.Split(s, ".")` on the underlying characters: cut at every dot;
`n` pieces for `n-1` dots, so the empty string gives one empty piece. -/
def splitChar : List Char → List (List Char)
  | [] => [[]]
  | c :: rest =>
      if c = '.' then [] :: splitChar rest
      else
        match splitChar rest with
        | g :: gs => (c :: g) :: gs
        | [] => [[c]]

/-- `strings.Split(key, ".")` from the dot-separated-key loops of
src/simplejson.go. -/
def splitOnDot (s : String) : List String :=
  (splitChar s.toList).map String.mk

/-- The white space characters trimmed by Go's `strings.TrimSpace`, i.e. the
full `unicode.IsSpace` (White_Space) set: the Latin-1 spaces TAB, LF, VT, FF,
CR, SPACE, NEL (U+0085) and NBSP (U+00A0), plus the Ogham space mark
(U+1680), the typographic spaces U+2000-U+200A, the line and paragraph
separators U+2028 and U+2029, the narrow no-break space (U+202F), the medium
mathematical space (U+205F) and the ideographic space (U+3000). -/
def isSpaceGo (c : Char) : Bool :=
  c = ' ' || c = '\t' || c = '\n' || c = '\x0b' || c = '\x0c' || c = '\r'
    || c = '\u0085' || c = '\u00A0' || c = '\u1680'
    || ('\u2000' ≤ c && c ≤ '\u200A')
    || c = '\u2028' || c = '\u2029' || c = '\u202F' || c = '\u205F'
    || c = '\u3000'

/-- `strings.TrimSpace`: drop white space from both ends. -/
def trimSpace (s : String) : String :=
  String.mk (((s.toList.dropWhile isSpaceGo).reverse.dropWhile isSpaceGo).reverse)

/-- `strconv.Atoi`: base-10 integer with optional sign, ASCII digits only,
must fit in a 64-bit int (out of range is an error, like any syntax
error). -/
def atoi (s : String) : Option Int :=
  match s.toList with
  | [] => none
  | cs =>
    let signDigits : Int × List Char :=
      match cs with
      | '+' :: rest => (1, rest)
      | '-' :: rest => (-1, rest)
      | l => (1, l)
    if signDigits.2 = [] then none
    else if signDigits.2.all (fun c => c.isDigit) then
      let n : Nat := signDigits.2.foldl (fun a c => a * 10 + (c.toNat - 48)) 0
      let v : Int := signDigits.1 * Int.ofNat n
      if -(2 ^ 63) ≤ v ∧ v < 2 ^ 63 then some v else none
    else none

/-- The loop of `func (j *Json) Has(key)` over the dot-separated components:
all components but the last are trimmed and, when non-empty, followed into a
nested map (`false` when absent or not a map); the last component is looked
up untrimmed. -/
def hasKeys : List (String × JValue) → List String → Bool
  | _, [] => false
  | m, [last] => (jlookup m last).isSome
  | m, k :: rest =>
      let v := trimSpace k
      if v = "" then hasKeys m rest
      else
        match jlookup m v with
        | some (JValue.obj m2) => hasKeys m2 rest
        | _ => false

/-- `func (j *Json) Has(key)` from src/simplejson.go. -/
def Has (j : Json) (key : String) : Bool :=
  match j.Data with
  | JValue.obj m => hasKeys m (splitOnDot key)
  | _ => false

/-- `func (j *Json) GetN(i)` from src/simplejson.go; `none` models the Go
runtime panic of indexing a slice with a negative index. -/
def GetN (j : Json) (i : Int) : Option Json :=
  match ArrayV j with
  | some data =>
      if i < Int.ofNat data.length then
        if 0 ≤ i then (data[i.toNat]?).map (fun x => Json.mk x)
        else none
      else some (Json.mk JValue.null)
  | none => some (Json.mk JValue.null)

/-- One non-empty trimmed component of the loop of `func (j *Json) Get(key)`:
present keys are followed into the map (a missing `Map` leaves the value
unchanged), absent keys that parse as an integer index into the value via
`GetN`, and everything else leaves the value unchanged. -/
def getStep (r : Json) (v : String) : Option Json :=
  if Has r v then
    some (match Map r with
          | some data => Json.mk ((jlookup data v).getD JValue.null)
          | none => r)
  else
    match atoi v with
    | some i => GetN r i
    | none => some r

/-- One raw component of the loop of `func (j *Json) Get(key)`: trims it and
skips it when empty. -/
def getComp (r : Json) (v : String) : Option Json :=
  let v2 := trimSpace v
  if v2 = "" then some r else getStep r v2

/-- `func (j *Json) Get(key)` from src/simplejson.go. -/
def Get (j : Json) (key : String) : Option Json :=
  (splitOnDot key).foldlM getComp j

/-- Go map assignment `m[k] = v`: replace the existing entry or append. -/
def setKey : List (String × JValue) → String → JValue → List (String × JValue)
  | [], k, v => [(k, v)]
  | (k2, v2) :: rest, k, v =>
      if k2 = k then (k2, v) :: rest else (k2, v2) :: setKey rest k v

/-- The loop of `func (j *Json) Set(key, value)` over the dot-separated
components of the trimmed key: all components but the last are trimmed and,
when non-empty, followed into a nested map (creating an empty map when
absent); `none` models the Go panic of the unchecked type assertion when a
present intermediate value is not a map.  The last component is assigned
untrimmed. -/
def setPath : List (String × JValue) → List String → JValue → Option (List (String × JValue))
  | _, [], _ => none
  | m, [last], value => some (setKey m last value)
  | m, k :: rest, value =>
      let v := trimSpace k
      if v = "" then setPath m rest value
      else
        match jlookup m v with
        | none => (setPath [] rest value).map (fun inner => setKey m v (JValue.obj inner))
        | some (JValue.obj m2) =>
            (setPath m2 rest value).map (fun inner => setKey m v (JValue.obj inner))
        | some _ => none

/-- `func (j *Json) Set(key, value)` from src/simplejson.go: an empty trimmed
key replaces `Data` wholesale; on a non-map `Data` the method silently
returns (Set has no return value, so no error is reported either). -/
def Set (j : Json) (key : String) (value : JValue) : Option Json :=
  let key2 := trimSpace key
  if key2 = "" then some (Json.mk value)
  else
    match j.Data with
    | JValue.obj m =>
        (setPath m (splitOnDot key2) value).map (fun m2 => Json.mk (JValue.obj m2))
    | _ => some j

theorem splitChar_no_dot (cs : List Char) (h : '.' ∉ cs) : splitChar cs = [cs] := by
  induction cs with
  | nil => rfl
  | cons c rest ih =>
    simp only [List.mem_cons, not_or] at h
    have hne : ¬(c = '.') := fun hc => h.1 hc.symm
    simp [splitChar, hne, ih h.2]

theorem splitOnDot_no_dot (k : String) (h : '.' ∉ k.toList) : splitOnDot k = [k] := by
  unfold splitOnDot
  rw [splitChar_no_dot _ h]
  rfl

theorem trimSpace_no_dot (k : String) (h : '.' ∉ k.toList) :
    '.' ∉ (trimSpace k).toList := by
  intro hc
  apply h
  have hc2 : '.' ∈ ((k.toList.dropWhile isSpaceGo).reverse.dropWhile isSpaceGo).reverse := hc
  rw [List.mem_reverse] at hc2
  have hc3 := (List.dropWhile_sublist isSpaceGo).subset hc2
  rw [List.mem_reverse] at hc3
  exact (List.dropWhile_sublist isSpaceGo).subset hc3

/-- C8.  `Get` on a map with a dot-free key that, after trimming, is neither
present in the map nor parseable as an integer, returns the receiver itself —
the original object with its data unchanged — not a `Json` wrapping nil. -/
theorem get_missing_key (m : List (String × JValue)) (k : String)
    (hdot : '.' ∉ k.toList)
    (hmem : jlookup m (trimSpace k) = none)
    (hatoi : atoi (trimSpace k) = none) :
    Get (Json.mk (JValue.obj m)) k = some (Json.mk (JValue.obj m)) := by
  have hsplit2 : splitOnDot (trimSpace k) = [trimSpace k] :=
    splitOnDot_no_dot _ (trimSpace_no_dot k hdot)
  unfold Get
  rw [splitOnDot_no_dot k hdot]
  simp only [List.foldlM_cons, List.foldlM_nil]
  have hstep : getComp (Json.mk (JValue.obj m)) k = some (Json.mk (JValue.obj m)) := by
    unfold getComp
    by_cases hv : trimSpace k = ""
    · simp [hv]
    · have hhas : Has (Json.mk (JValue.obj m)) (trimSpace k) = false := by
        unfold Has
        simp [hsplit2, hasKeys, hmem]
      simp [hv, getStep, hhas, hatoi]
  simp [hstep]

theorem get_missing_key_witness :
    Get (Json.mk (JValue.obj [(("a"), JValue.num 1)])) ("missing")
      = some (Json.mk (JValue.obj [(("a"), JValue.num 1)])) :=
  get_missing_key [(("a"), JValue.num 1)] ("missing")
    (by decide) rfl rfl

/-- C9.  `Set` on a `Json` whose data is not a map: a key that is non-empty
after trimming leaves the value completely unchanged and reports no error
(and no panic); only a key that trims to the empty string replaces the data
with the new value. -/
theorem set_non_map (d : JValue) (key : String) (value : JValue)
    (hd : ∀ m, d ≠ JValue.obj m) :
    (trimSpace key ≠ "" → Set (Json.mk d) key value = some (Json.mk d))
    ∧ (trimSpace key = "" → Set (Json.mk d) key value = some (Json.mk value)) := by
  constructor
  · intro hk
    cases d with
    | obj m => exact absurd rfl (hd m)
    | null => simp [Set, hk]
    | boolean b => simp [Set, hk]
    | num n => simp [Set, hk]
    | str s => simp [Set, hk]
    | arr xs => simp [Set, hk]
  · intro hk
    simp [Set, hk]

theorem set_non_map_witness :
    Set (Json.mk (JValue.num 3)) ("a") (JValue.str ("v")) = some (Json.mk (JValue.num 3))
    ∧ Set (Json.mk (JValue.num 3)) (" ") (JValue.str ("v"))
        = some (Json.mk (JValue.str ("v"))) :=
  ⟨(set_non_map (JValue.num 3) ("a") (JValue.str ("v"))
      (fun _ h => JValue.noConfusion h)).1 (by decide),
   (set_non_map (JValue.num 3) (" ") (JValue.str ("v"))
      (fun _ h => JValue.noConfusion h)).2 (by decide)⟩

end SimpleJson

namespace GoAssert

/-- The dynamic values handed to the assert package (src, package assert):
Go `interface{}` arguments as far as the claims need them — nil, booleans,
integers and strings. -/
inductive GoValue where
  | nil
  | boolean (b : Bool)
  | int (n : Int)
  | str (s : String)
deriving DecidableEq

/-- `reflect.DeepEqual` restricted to these values: values of different
dynamic types are never deeply equal; values of the same type are compared
structurally. -/
def deepEqual : GoValue → GoValue → Bool
  | GoValue.nil, GoValue.nil => true
  | GoValue.boolean a, GoValue.boolean b => a == b
  | GoValue.int a, GoValue.int b => a == b
  | GoValue.str a, GoValue.str b => a == b
  | _, _ => false

/-- `func equal(t, got, exp, step, args...)`: the assertion passes when
`reflect.DeepEqual(exp, got)` holds. -/
def equalOk (got exp : GoValue) : Bool := deepEqual exp got

/-- `func notEqual(t, got, exp, step, args...)`: the assertion passes when
`!reflect.DeepEqual(exp, got)`. -/
def notEqualOk (got exp : GoValue) : Bool := !(deepEqual exp got)

/-- `func True(t, got, args...)`: `equal(t, got, true, ...)`. -/
def trueOk (got : GoValue) : Bool := equalOk got (GoValue.boolean true)

/-- `func False(t, got, args...)`: `notEqual(t, got, true, ...)`. -/
def falseOk (got : GoValue) : Bool := notEqualOk got (GoValue.boolean true)

/-- C10.  `assert.False(t, got)` succeeds exactly when `got` is not deeply
equal to the boolean `true` — in particular it succeeds on the non-boolean
values `1`, `"x"` and `nil`, not only on the boolean `false`. -/
theorem assert_false_not_deep_equal_true :
    (∀ got : GoValue, falseOk got = true ↔ got ≠ GoValue.boolean true)
    ∧ falseOk (GoValue.int 1) = true
    ∧ falseOk (GoValue.str ("x")) = true
    ∧ falseOk GoValue.nil = true
    ∧ falseOk (GoValue.boolean false) = true := by
  refine ⟨?_, rfl, rfl, rfl, rfl⟩
  intro got
  cases got with
  | nil => simp [falseOk, notEqualOk, deepEqual]
  | boolean b => cases b <;> simp [falseOk, notEqualOk, deepEqual]
  | int n => simp [falseOk, notEqualOk, deepEqual]
  | str s => simp [falseOk, notEqualOk, deepEqual]

end GoAssert
